import Mathlib

/-!
# Verification of `goenrichment/enrichment_stats.py`

A shallow embedding of the GO-term enrichment core
(`enrichmentOneSided`, `countGOassociations`, `enrichmentAnalysis`,
`recursiveTester`) together with proofs about it.

Modelling conventions:
* Python dicts with string keys become association lists
  (`List (String × _)`), looked up with `List.lookup`; the `KeyError`
  raised by `GOdict[GOid]` on a missing key becomes an explicit
  `RunResult.keyError` outcome.
* Python sets of strings become `Finset String` when only membership is
  used (the `childs` attribute, the `validTerms` set), and `List String`
  when the program iterates over them in some (unspecified) order
  (a gene's annotation set, the `parents` attribute).  The list order
  models one possible iteration order of the Python set.
* The unbounded Python recursion of `recursiveTester` becomes a
  fuel-indexed function: fuel `0` yields the explicit outcome
  `RunResult.diverge`, and each nested recursive invocation runs with
  one unit of fuel less.  An actual Python run terminates exactly when
  some fuel suffices.
* `scipy.stats.hypergeom.sf` is embedded as the exact rational
  hypergeometric survival function on its documented parameter domain.
-/

/-- Outcome of running a piece of the (effectful) Python code:
either the fuel ran out (modelling non-termination), or a dict lookup
raised `KeyError` on the given key, or the run finished with a value. -/
inductive RunResult (α : Type) where
  | diverge : RunResult α
  | keyError (key : String) : RunResult α
  | ok (val : α) : RunResult α
deriving DecidableEq, Repr

/-- Sequencing of runs: an error or divergence short-circuits. -/
def RunResult.bind {α β : Type} : RunResult α → (α → RunResult β) → RunResult β
  | .diverge, _ => .diverge
  | .keyError k, _ => .keyError k
  | .ok a, f => f a

/-- A GO term as produced by the (external) OBO loader: its direct
parents (iterated in some order) and the precomputed set of its
descendants (`childs` in the source). -/
structure GOterm where
  parents : List String
  childs : Finset String
deriving DecidableEq

/-- `GOdict`: mapping from GO identifier to its `GOterm` object. -/
abbrev GOGraph := List (String × GOterm)

/-- A gene-association (GAF) mapping: gene identifier to the list of GO
identifiers annotated to it (a Python set, in iteration order). -/
abbrev Gaf := List (String × List String)

/-- The `pValues` dict built by the walker: insertion-ordered
association list from GO identifier to recorded p-value. -/
abbrev PMap := List (String × ℚ)

/-!
## `enrichmentOneSided` (lines 64–100 of the source)

The source computes `hypergeom.sf(subsetGO - 1, backgroundTotal,
backgroundGO, subsetTotal)`.  We embed `scipy.stats.hypergeom` by its
mathematical definition: `hypergeomPmf M n N j` is the probability of
drawing exactly `j` successes in `N` draws without replacement from a
population of `M` items of which `n` are successes, and
`hypergeomSf k` is `P(X > k)` (the survival function), the argument
`k` being an integer since the source passes `subsetGO - 1`, which is
`-1` when `subsetGO = 0`.
-/

/-- Hypergeometric probability mass function, as an exact rational. -/
def hypergeomPmf (M n N j : ℕ) : ℚ :=
  if N < j then 0
  else ((n.choose j * (M - n).choose (N - j) : ℕ) : ℚ) / ((M.choose N : ℕ) : ℚ)

/-- Hypergeometric survival function `P(X > k)`, summing the mass
function over the draw range `0 … N`. -/
def hypergeomSf (k : ℤ) (M n N : ℕ) : ℚ :=
  ∑ j ∈ Finset.range (N + 1), if k < (j : ℤ) then hypergeomPmf M n N j else 0

/-- Hypergeometric cumulative distribution function `P(X ≤ k)`. -/
def hypergeomCdf (k : ℤ) (M n N : ℕ) : ℚ :=
  ∑ j ∈ Finset.range (N + 1), if (j : ℤ) ≤ k then hypergeomPmf M n N j else 0

/-- `enrichmentOneSided(subsetGO, backgroundTotal, backgroundGO,
subsetTotal)`: returns `hypergeom.sf(subsetGO - 1, backgroundTotal,
backgroundGO, subsetTotal)` with no input validation. -/
def enrichmentOneSided (subsetGO backgroundTotal backgroundGO subsetTotal : ℕ) : ℚ :=
  hypergeomSf ((subsetGO : ℤ) - 1) backgroundTotal backgroundGO subsetTotal

/-!
## `countGOassociations` (lines 103–116)

A fold over the GAF entries, incrementing the counter whenever the
gene's annotation set is not disjoint from `validTerms`, mirroring the
`for`-loop with the `isdisjoint` test.
-/

/-- `countGOassociations(validTerms, gaf)`. -/
def countGOassociations (validTerms : Finset String) (gaf : Gaf) : ℕ :=
  gaf.foldl
    (fun GOcounter entry =>
      if ∀ t ∈ entry.2, t ∉ validTerms then GOcounter else GOcounter + 1)
    0

/-!
## `recursiveTester` (lines 153–194)

The fixed arguments of the recursion are bundled in `Params`; the
varying arguments are the fuel, the current `GOid` and the `pValues`
accumulator.  The body follows the source line by line:

1. memo check `if GOid not in pValues` (else fall through, returning
   the accumulator unchanged);
2. `GOdict[GOid]` (a missing key is a `KeyError`);
3. `validTerms = {GOid} ∪ childs`;
4. the two association counts;
5. `backgroundGO < minGenes`: recurse into every parent without
   recording anything;
6. otherwise record `pValues[GOid] = pVal` and recurse into every
   parent iff `pVal > threshold`.
-/

/-- The per-run fixed arguments of `recursiveTester`. -/
structure Params where
  backgroundTotal : ℕ
  subsetTotal : ℕ
  GOdict : GOGraph
  gafDict : Gaf
  gafSubset : Gaf
  minGenes : ℕ
  threshold : ℚ

/-- Sequentially run a walker `w` on each element of a list of GO ids,
threading the `pValues` accumulator (the `for parent in … parents`
loop, and also the driver's loop over the base GO ids). -/
def walkList (w : String → PMap → RunResult PMap) : List String → PMap → RunResult PMap
  | [], pValues => .ok pValues
  | GOid :: rest, pValues => (w GOid pValues).bind (walkList w rest)

/-- One unfolding of `recursiveTester`, with `w` standing for the
nested recursive invocations. -/
def recursiveTesterStep (P : Params) (w : String → PMap → RunResult PMap)
    (GOid : String) (pValues : PMap) : RunResult PMap :=
  if (pValues.lookup GOid).isSome then .ok pValues
  else
    match P.GOdict.lookup GOid with
    | none => .keyError GOid
    | some term =>
      let validTerms : Finset String := insert GOid term.childs
      let backgroundGO := countGOassociations validTerms P.gafDict
      let subsetGO := countGOassociations validTerms P.gafSubset
      if backgroundGO < P.minGenes then
        walkList w term.parents pValues
      else
        let pVal := enrichmentOneSided subsetGO P.backgroundTotal backgroundGO P.subsetTotal
        let pValues' := pValues ++ [(GOid, pVal)]
        if P.threshold < pVal then walkList w term.parents pValues'
        else .ok pValues'

/-- `recursiveTester(GOid, …, pValues)` with the given recursion fuel:
fuel `0` is the divergence marker, and every nested recursive call
runs with one unit less. -/
def recursiveTester (P : Params) : ℕ → String → PMap → RunResult PMap
  | 0 => fun _ _ => .diverge
  | fuel + 1 => recursiveTesterStep P (recursiveTester P fuel)

/-!
## `enrichmentAnalysis` (lines 119–150)
-/

/-- The inner part of the `baseGOids` list comprehension for one
gene's annotation list: keep each `GOid` with `not GOdict[GOid].childs`;
a `GOid` missing from `GOdict` raises `KeyError`. -/
def baseGOidsOfGene (GOdict : GOGraph) : List String → RunResult (List String)
  | [] => .ok []
  | GOid :: rest =>
    match GOdict.lookup GOid with
    | none => .keyError GOid
    | some term =>
      (baseGOidsOfGene GOdict rest).bind fun l =>
        .ok (if term.childs = ∅ then GOid :: l else l)

/-- The `baseGOids` list comprehension: one pass over the
`gafSubset.items()`, concatenating the per-gene contributions. -/
def baseGOids (GOdict : GOGraph) : Gaf → RunResult (List String)
  | [] => .ok []
  | (_, GOids) :: rest =>
    (baseGOidsOfGene GOdict GOids).bind fun l =>
      (baseGOids GOdict rest).bind fun l' => .ok (l ++ l')

/-- `enrichmentAnalysis(background, subset, GOdict, gafDict, gafSubset,
minGenes, threshold)`: computes the base GO ids, then runs
`recursiveTester` on each against the single shared `pValues` dict
(initially empty), returning the accumulated dict.  `background` and
`subset` enter only through their sizes. -/
def enrichmentAnalysis (fuel : ℕ) (background subset : Finset String)
    (GOdict : GOGraph) (gafDict gafSubset : Gaf)
    (minGenes : ℕ) (threshold : ℚ) : RunResult PMap :=
  (baseGOids GOdict gafSubset).bind fun ids =>
    walkList
      (recursiveTester
        ⟨background.card, subset.card, GOdict, gafDict, gafSubset, minGenes, threshold⟩ fuel)
      ids []

/-- The upper tail `P(X ≥ s)` of the hypergeometric distribution,
written directly as a sum over `s ≤ j ≤ N`; used to state what
`enrichmentOneSided` computes. -/
def hypergeomTail (s M n N : ℕ) : ℚ :=
  ∑ j ∈ Finset.Icc s N, hypergeomPmf M n N j

/-!
## Static description of the walker

The value recorded for a term, whether it gets recorded, and into
which parents the walker propagates are all pure functions of the term
identifier (given the fixed `Params`); the traversal only decides
*which* terms get expanded.  The definitions below capture that static
structure; `walkSpec` (proved later) characterises a successful run of
`recursiveTester` in terms of them.
-/

/-- The `validTerms` set the walker builds for `GOid`:
`{GOid} ∪ childs`. -/
def validTermsOf (GOid : String) (term : GOterm) : Finset String :=
  insert GOid term.childs

/-- Background association count for an expanded term. -/
def bgHits (P : Params) (GOid : String) (term : GOterm) : ℕ :=
  countGOassociations (validTermsOf GOid term) P.gafDict

/-- Subset association count for an expanded term. -/
def subHits (P : Params) (GOid : String) (term : GOterm) : ℕ :=
  countGOassociations (validTermsOf GOid term) P.gafSubset

/-- The p-value the walker computes when it tests `GOid`. -/
def pValOf (P : Params) (GOid : String) (term : GOterm) : ℚ :=
  enrichmentOneSided (subHits P GOid term) P.backgroundTotal
    (bgHits P GOid term) P.subsetTotal

/-- The p-value as a function of the identifier alone (irrelevant
default for identifiers missing from the graph). -/
def pValAt (P : Params) (GOid : String) : ℚ :=
  match P.GOdict.lookup GOid with
  | some term => pValOf P GOid term
  | none => 0

/-- `GOid` gets an entry when expanded: it is in the graph and its
background count reaches `minGenes`. -/
def Records (P : Params) (GOid : String) : Prop :=
  ∃ term, P.GOdict.lookup GOid = some term ∧ P.minGenes ≤ bgHits P GOid term

/-- Static propagation relation: expanding `GOid` makes the walker
recurse into its parent `p` (either the evidence-insufficiency branch
or a recorded but non-significant p-value). -/
def Edge (P : Params) (GOid p : String) : Prop :=
  ∃ term, P.GOdict.lookup GOid = some term ∧ p ∈ term.parents ∧
    (bgHits P GOid term < P.minGenes ∨ P.threshold < pValOf P GOid term)

/-- `ReachAvoid P m a x`: the walker starting at `a` can reach `x`
along `Edge`-steps whose sources are all absent from the memo `m`. -/
inductive ReachAvoid (P : Params) (m : PMap) : String → String → Prop
  | refl (x : String) : m.lookup x = none → ReachAvoid P m x x
  | step (x y z : String) : m.lookup x = none → Edge P x y →
      ReachAvoid P m y z → ReachAvoid P m x z

/-- Full specification of a successful walk whose starting points are
described by `R`: existing memo entries survive unchanged, and a new
entry appears exactly for recordable identifiers reachable (avoiding
`m`) from a starting point, with the statically determined p-value. -/
def WalkSpec (P : Params) (m : PMap) (R : String → Prop) (r : PMap) : Prop :=
  ∀ x, (∀ v, m.lookup x = some v → r.lookup x = some v) ∧
    (m.lookup x = none →
      (R x ∧ Records P x → r.lookup x = some (pValAt P x)) ∧
      (¬ (R x ∧ Records P x) → r.lookup x = none))

/-- The frontier test of the driver's comprehension:
`not GOdict[GOid].childs` for a term present in the graph. -/
def isLeaf (GOdict : GOGraph) (t : String) : Bool :=
  match GOdict.lookup t with
  | some term => decide (term.childs = ∅)
  | none => false

/-- Upper bound on ranks across the graph's keys. -/
def maxRankOf (GOdict : GOGraph) (rank : String → ℕ) : ℕ :=
  (GOdict.map fun e => rank e.1).foldr max 0

/-!
## Order independence (iteration orders of Python sets/dicts)

Python iterates over sets and dict items in an unspecified order; in
the embedding those orders are the list orders.  `EntryPerm`/`GafPerm`
relate two presentations of the same annotation dict, and `GraphPerm`
two presentations of the same term graph (per-term parent sets in
different orders).
-/

/-- Same gene, same annotation set in a different iteration order. -/
def EntryPerm (a b : String × List String) : Prop :=
  a.1 = b.1 ∧ a.2.Perm b.2

/-- Same annotation dict: entries in a different order, each entry's
term set in a different order. -/
def GafPerm (g1 g2 : Gaf) : Prop :=
  ∃ g', List.Forall₂ EntryPerm g1 g' ∧ g'.Perm g2

/-- Same term graph: per identifier, both absent or both present with
equal descendant sets and parent sets in a different order. -/
def GraphPerm (G1 G2 : GOGraph) : Prop :=
  ∀ id, (G1.lookup id = none ∧ G2.lookup id = none) ∨
    ∃ t1 t2, G1.lookup id = some t1 ∧ G2.lookup id = some t2 ∧
      t1.parents.Perm t2.parents ∧ t1.childs = t2.childs

/-- Concrete one-term parameter block used by witnesses: a single
leaf/root term `"T"`, empty association maps, defaults
`minGenes = 3`, `threshold = 0.05`. -/
def exampleParams : Params :=
  ⟨0, 0, [("T", ⟨[], ∅⟩)], [], [], 3, 1/20⟩

/-- A malformed graph whose parent relation is a two-term cycle
`A ⇄ B`, with empty association maps (so both terms always fall into
the insufficient-evidence branch, which records nothing). -/
def cycParams : Params :=
  ⟨0, 0, [("A", ⟨["B"], ∅⟩), ("B", ⟨["A"], ∅⟩)], [], [], 3, 1/20⟩

/-- Acyclic two-level graph used by witnesses: leaf `"L"` with parent
`"P"`. -/
def acyclicParams : Params :=
  ⟨0, 0, [("L", ⟨["P"], ∅⟩), ("P", ⟨[], {"L"}⟩)], [], [], 3, 1/20⟩

/-- A three-term graph (leaf `"T"` with parents `"P1"`, `"P2"`) in two
parent iteration orders. -/
def permGraphA : GOGraph :=
  [("T", ⟨["P1", "P2"], ∅⟩), ("P1", ⟨[], {"T"}⟩), ("P2", ⟨[], {"T"}⟩)]

/-- Like `permGraphA`, but `"T"`'s parent set is iterated the other
way round. -/
def permGraphB : GOGraph :=
  [("T", ⟨["P2", "P1"], ∅⟩), ("P1", ⟨[], {"T"}⟩), ("P2", ⟨[], {"T"}⟩)]

/-!
## Lemmas and theorems
-/

theorem RunResult.bind_ok {α β : Type} {x : RunResult α} {f : α → RunResult β} {b : β}
    (h : x.bind f = .ok b) : ∃ a, x = .ok a ∧ f a = .ok b := by
  cases x with
  | diverge => simp [RunResult.bind] at h
  | keyError k => simp [RunResult.bind] at h
  | ok a => exact ⟨a, rfl, h⟩

theorem RunResult.bind_ne_diverge {α β : Type} {x : RunResult α} {f : α → RunResult β}
    (h : x.bind f ≠ .diverge) : x ≠ .diverge := by
  intro hx; rw [hx] at h; exact h rfl

/-!
## Facts about the hypergeometric embedding
-/

lemma hypergeomPmf_nonneg (M n N j : ℕ) : 0 ≤ hypergeomPmf M n N j := by
  unfold hypergeomPmf
  split
  · exact le_refl 0
  · exact div_nonneg (by positivity) (by positivity)

/-- The mass function sums to `1` over the draw range (Vandermonde). -/
lemma hypergeomPmf_total (M n N : ℕ) (hn : n ≤ M) (hN : N ≤ M) :
    ∑ j ∈ Finset.range (N + 1), hypergeomPmf M n N j = 1 := by
  have hD : (0 : ℚ) < ((M.choose N : ℕ) : ℚ) := by
    exact_mod_cast Nat.choose_pos hN
  have hsum : ∑ j ∈ Finset.range (N + 1),
      (n.choose j * (M - n).choose (N - j)) = M.choose N := by
    have hv := Nat.add_choose_eq n (M - n) N
    rw [Nat.add_sub_cancel' hn] at hv
    rw [hv, Finset.Nat.sum_antidiagonal_eq_sum_range_succ
      (fun i j => n.choose i * (M - n).choose j) N]
  have hcongr : ∀ j ∈ Finset.range (N + 1), hypergeomPmf M n N j
      = ((n.choose j * (M - n).choose (N - j) : ℕ) : ℚ) / ((M.choose N : ℕ) : ℚ) := by
    intro j hj
    rw [Finset.mem_range] at hj
    rw [hypergeomPmf, if_neg (by omega)]
  rw [Finset.sum_congr rfl hcongr, ← Finset.sum_div, ← Nat.cast_sum, hsum]
  exact div_self (ne_of_gt hD)

lemma hypergeomSf_add_cdf (k : ℤ) (M n N : ℕ) (hn : n ≤ M) (hN : N ≤ M) :
    hypergeomSf k M n N + hypergeomCdf k M n N = 1 := by
  rw [hypergeomSf, hypergeomCdf, ← Finset.sum_add_distrib]
  have hcongr : ∀ j ∈ Finset.range (N + 1),
      ((if k < (j : ℤ) then hypergeomPmf M n N j else 0)
        + (if (j : ℤ) ≤ k then hypergeomPmf M n N j else 0)) = hypergeomPmf M n N j := by
    intro j _
    rcases lt_or_le k (j : ℤ) with h | h
    · rw [if_pos h, if_neg (not_le.mpr h), add_zero]
    · rw [if_neg (not_lt.mpr h), if_pos h, zero_add]
  rw [Finset.sum_congr rfl hcongr]
  exact hypergeomPmf_total M n N hn hN

lemma hypergeomSf_nonneg (k : ℤ) (M n N : ℕ) : 0 ≤ hypergeomSf k M n N := by
  refine Finset.sum_nonneg fun j _ => ?_
  split
  · exact hypergeomPmf_nonneg M n N j
  · exact le_refl 0

lemma hypergeomCdf_nonneg (k : ℤ) (M n N : ℕ) : 0 ≤ hypergeomCdf k M n N := by
  refine Finset.sum_nonneg fun j _ => ?_
  split
  · exact hypergeomPmf_nonneg M n N j
  · exact le_refl 0

lemma enrichmentOneSided_eq_tail (s M n N : ℕ) :
    enrichmentOneSided s M n N = hypergeomTail s M n N := by
  rw [enrichmentOneSided, hypergeomSf, hypergeomTail, ← Finset.sum_filter]
  apply Finset.sum_congr _ (fun j _ => rfl)
  ext j
  simp only [Finset.mem_filter, Finset.mem_range, Finset.mem_Icc]
  omega

lemma hypergeomCdf_neg_one (M n N : ℕ) : hypergeomCdf (-1) M n N = 0 := by
  refine Finset.sum_eq_zero fun j _ => ?_
  rw [if_neg (by omega)]

/-- C5: under the preconditions, `enrichmentOneSided` returns a value
in `[0,1]` equal to `P(X ≥ subsetHits) = 1 − P(X ≤ subsetHits − 1)` for
`X` hypergeometric with population `backgroundTotal`, successes
`backgroundGO`, draws `subsetTotal`; in particular for `subsetGO = 0`
it returns `1`. -/
theorem enrichmentOneSided_correct (subsetGO backgroundTotal backgroundGO subsetTotal : ℕ)
    (hn : backgroundGO ≤ backgroundTotal) (hN : subsetTotal ≤ backgroundTotal)
    (hs : subsetGO ≤ min subsetTotal backgroundGO) :
    0 ≤ enrichmentOneSided subsetGO backgroundTotal backgroundGO subsetTotal ∧
    enrichmentOneSided subsetGO backgroundTotal backgroundGO subsetTotal ≤ 1 ∧
    enrichmentOneSided subsetGO backgroundTotal backgroundGO subsetTotal
      = hypergeomTail subsetGO backgroundTotal backgroundGO subsetTotal ∧
    enrichmentOneSided subsetGO backgroundTotal backgroundGO subsetTotal
      = 1 - hypergeomCdf ((subsetGO : ℤ) - 1) backgroundTotal backgroundGO subsetTotal ∧
    (subsetGO = 0 →
      enrichmentOneSided subsetGO backgroundTotal backgroundGO subsetTotal = 1) := by
  have hadd := hypergeomSf_add_cdf ((subsetGO : ℤ) - 1)
    backgroundTotal backgroundGO subsetTotal hn hN
  have hcompl : enrichmentOneSided subsetGO backgroundTotal backgroundGO subsetTotal
      = 1 - hypergeomCdf ((subsetGO : ℤ) - 1) backgroundTotal backgroundGO subsetTotal := by
    rw [enrichmentOneSided]
    linarith
  refine ⟨hypergeomSf_nonneg _ _ _ _, ?_, enrichmentOneSided_eq_tail _ _ _ _, hcompl, ?_⟩
  · rw [hcompl]
    have := hypergeomCdf_nonneg ((subsetGO : ℤ) - 1) backgroundTotal backgroundGO subsetTotal
    linarith
  · intro h0
    subst h0
    rw [hcompl]
    norm_num [hypergeomCdf_neg_one]

/-- Witness for `enrichmentOneSided_correct` at the spec's reference
parameters `backgroundTotal = 20`, `backgroundGO = 5`,
`subsetTotal = 10`, `subsetGO = 4`. -/
theorem enrichmentOneSided_correct_witness :
    (5 ≤ 20 ∧ 10 ≤ 20 ∧ 4 ≤ min 10 5) ∧
    (0 ≤ enrichmentOneSided 4 20 5 10 ∧ enrichmentOneSided 4 20 5 10 ≤ 1 ∧
      enrichmentOneSided 4 20 5 10 = hypergeomTail 4 20 5 10 ∧
      enrichmentOneSided 4 20 5 10 = 1 - hypergeomCdf ((4 : ℤ) - 1) 20 5 10 ∧
      (4 = 0 → enrichmentOneSided 4 20 5 10 = 1)) :=
  ⟨⟨by decide, by decide, by decide⟩,
    enrichmentOneSided_correct 4 20 5 10 (by decide) (by decide) (by decide)⟩

/-- C6 counterexample: at the precondition-violating input
`subsetGO = 6 > subsetTotal = 3` (with valid distribution parameters
`backgroundTotal = 20`, `backgroundGO = 10`), `enrichmentOneSided`
does not fail: it returns the value `0`, exactly as
`scipy.stats.hypergeom.sf(5, 20, 10, 3)` returns `0.0` without
raising — the source performs no input validation at all. -/
theorem enrichmentOneSided_no_error_counterexample :
    enrichmentOneSided 6 20 10 3 = 0 := by
  simp only [enrichmentOneSided, hypergeomSf]
  refine Finset.sum_eq_zero fun j hj => ?_
  rw [Finset.mem_range] at hj
  rw [if_neg (by omega)]

/-- C6 amended: `enrichmentOneSided` performs no precondition check
and never fails; on a count-inconsistent input with
`subsetTotal < subsetGO` it silently returns the degenerate p-value
`0` instead of an error. -/
theorem enrichmentOneSided_no_validation (subsetGO backgroundTotal backgroundGO subsetTotal : ℕ)
    (h : subsetTotal < subsetGO) :
    enrichmentOneSided subsetGO backgroundTotal backgroundGO subsetTotal = 0 := by
  simp only [enrichmentOneSided, hypergeomSf]
  refine Finset.sum_eq_zero fun j hj => ?_
  rw [Finset.mem_range] at hj
  rw [if_neg (by omega)]

/-- Witness for `enrichmentOneSided_no_validation`. -/
theorem enrichmentOneSided_no_validation_witness :
    3 < 6 ∧ enrichmentOneSided 6 20 10 3 = 0 :=
  ⟨by decide, enrichmentOneSided_no_validation 6 20 10 3 (by decide)⟩

/-!
## Facts about `countGOassociations`
-/

lemma countGOassociations_foldl_init (validTerms : Finset String) (gaf : Gaf) (k : ℕ) :
    gaf.foldl
      (fun GOcounter entry =>
        if ∀ t ∈ entry.2, t ∉ validTerms then GOcounter else GOcounter + 1) k
      = k + gaf.foldl
        (fun GOcounter entry =>
          if ∀ t ∈ entry.2, t ∉ validTerms then GOcounter else GOcounter + 1) 0 := by
  induction gaf generalizing k with
  | nil => simp
  | cons e rest ih =>
    simp only [List.foldl_cons]
    rw [ih (if ∀ t ∈ e.2, t ∉ validTerms then k else k + 1),
        ih (if ∀ t ∈ e.2, t ∉ validTerms then 0 else 0 + 1)]
    by_cases h : ∀ t ∈ e.2, t ∉ validTerms
    · simp only [if_pos h]
      omega
    · simp only [if_neg h]
      omega

lemma countGOassociations_cons (validTerms : Finset String) (e : String × List String)
    (rest : Gaf) :
    countGOassociations validTerms (e :: rest)
      = (if ∀ t ∈ e.2, t ∉ validTerms then 0 else 1)
        + countGOassociations validTerms rest := by
  unfold countGOassociations
  simp only [List.foldl_cons]
  rw [countGOassociations_foldl_init]

lemma countGOassociations_eq_length (validTerms : Finset String) (gaf : Gaf) :
    countGOassociations validTerms gaf
      = (gaf.filter fun entry => decide (∃ t ∈ entry.2, t ∈ validTerms)).length := by
  induction gaf with
  | nil => rfl
  | cons e rest ih =>
    rw [countGOassociations_cons, List.filter_cons]
    by_cases h : ∃ t ∈ e.2, t ∈ validTerms
    · have hne : ¬ ∀ t ∈ e.2, t ∉ validTerms := by
        push_neg
        exact h
      simp [h, hne, ih]
      omega
    · have hall : ∀ t ∈ e.2, t ∉ validTerms := by
        push_neg at h
        exact h
      simp [h, hall, ih]

/-- C8: `countGOassociations` returns the number of GAF entries
(genes) whose annotation list shares at least one term with
`validTerms` — counting genes, not shared terms — and returns `0`
whenever `validTerms` or the gene mapping is empty; it is a pure
function of its two arguments (it is a Lean `def` with no state).
The last conjunct is the spec's concrete example. -/
theorem countGOassociations_correct :
    (∀ (validTerms : Finset String) (gaf : Gaf),
        countGOassociations validTerms gaf
          = (gaf.filter fun entry => decide (∃ t ∈ entry.2, t ∈ validTerms)).length) ∧
    (∀ gaf : Gaf, countGOassociations ∅ gaf = 0) ∧
    (∀ validTerms : Finset String, countGOassociations validTerms [] = 0) ∧
    countGOassociations {"GO:1"} [("geneA", ["GO:1", "GO:2"]), ("geneB", ["GO:3"])] = 1 := by
  refine ⟨countGOassociations_eq_length, ?_, fun _ => rfl, by decide⟩
  intro gaf
  rw [countGOassociations_eq_length]
  simp

/-!
## Association-list lookup lemmas
-/

lemma lookup_append (m l : PMap) (x : String) :
    (m ++ l).lookup x
      = match m.lookup x with
        | some v => some v
        | none => l.lookup x := by
  induction m with
  | nil => rfl
  | cons e rest ih =>
    obtain ⟨k, v⟩ := e
    by_cases hk : k = x
    · subst hk
      simp [List.lookup]
    · have hk' : (x == k) = false := beq_eq_false_iff_ne.mpr (Ne.symm hk)
      simp [List.lookup, hk', ih]

lemma lookup_append_some {m : PMap} {x : String} {v : ℚ} (h : m.lookup x = some v)
    (l : PMap) : (m ++ l).lookup x = some v := by
  rw [lookup_append, h]

lemma lookup_append_none {m : PMap} {x : String} (h : m.lookup x = none)
    (l : PMap) : (m ++ l).lookup x = l.lookup x := by
  rw [lookup_append, h]

lemma lookup_singleton_self (id : String) (v : ℚ) :
    ([(id, v)] : PMap).lookup id = some v := by
  simp [List.lookup]

lemma lookup_singleton_ne {x id : String} (h : x ≠ id) (v : ℚ) :
    ([(id, v)] : PMap).lookup x = none := by
  simp [List.lookup, beq_eq_false_iff_ne.mpr h]

/-!
## Properties of `ReachAvoid` and `WalkSpec`
-/

lemma ReachAvoid.start_not_mem {P : Params} {m : PMap} {a x : String}
    (h : ReachAvoid P m a x) : m.lookup a = none := by
  cases h with
  | refl _ hx => exact hx
  | step _ _ _ hx _ _ => exact hx

lemma ReachAvoid.trans {P : Params} {m : PMap} {a b c : String}
    (hab : ReachAvoid P m a b) (hbc : ReachAvoid P m b c) : ReachAvoid P m a c := by
  induction hab with
  | refl _ _ => exact hbc
  | step x y z hx hxy _ ih => exact .step x y c hx hxy (ih hbc)

/-- Avoiding a memo with more keys implies avoiding one with fewer. -/
lemma ReachAvoid.shrink {P : Params} {m m' : PMap}
    (hsub : ∀ z, m'.lookup z = none → m.lookup z = none)
    {a x : String} (h : ReachAvoid P m' a x) : ReachAvoid P m a x := by
  induction h with
  | refl z hz => exact .refl z (hsub z hz)
  | step z y w hz hzy _ ih => exact .step z y w (hsub z hz) hzy ih

/-- The keys of the output of a walk include those of the input memo. -/
lemma WalkSpec.keys_mono {P : Params} {m : PMap} {R : String → Prop} {r : PMap}
    (h : WalkSpec P m R r) : ∀ z, r.lookup z = none → m.lookup z = none := by
  intro z hz
  cases hm : m.lookup z with
  | none => rfl
  | some v =>
    have := (h z).1 v hm
    rw [hz] at this
    exact absurd this (by simp)

/-- Extraction from a walk specification: a new key of `r` must be a
recordable identifier reached from the start, with the static value. -/
lemma WalkSpec.of_new_key {P : Params} {m : PMap} {R : String → Prop} {r : PMap}
    (h : WalkSpec P m R r) {x : String} {w : ℚ}
    (hm : m.lookup x = none) (hr : r.lookup x = some w) :
    R x ∧ Records P x ∧ w = pValAt P x := by
  rcases Classical.em (R x ∧ Records P x) with hc | hc
  · have := ((h x).2 hm).1 hc
    rw [hr] at this
    exact ⟨hc.1, hc.2, by injection this⟩
  · have := ((h x).2 hm).2 hc
    rw [hr] at this
    exact absurd this (by simp)

/-- Paths that avoid `m` either avoid the result `r1` of a walk that
started at `p` as well, or certify that the walk from `p` already
reached the target. -/
lemma ReachAvoid.extend {P : Params} {m r1 : PMap} {p : String}
    (hspec : WalkSpec P m (ReachAvoid P m p) r1) {a x : String}
    (hax : ReachAvoid P m a x) :
    ReachAvoid P r1 a x ∨ ReachAvoid P m p x := by
  induction hax with
  | refl z hz =>
    cases hr : r1.lookup z with
    | none => exact Or.inl (.refl z hr)
    | some w =>
      exact Or.inr (hspec.of_new_key hz hr).1
  | step z y w hz hedge hyw ih =>
    cases hr : r1.lookup z with
    | none =>
      rcases ih with h | h
      · exact Or.inl (.step z y w hr hedge h)
      · exact Or.inr h
    | some v =>
      have hpz : ReachAvoid P m p z := (hspec.of_new_key hz hr).1
      exact Or.inr (hpz.trans (.step z y w hz hedge hyw))

/-- Adding the entry for `id` to the memo: a path from `a` to `x ≠ id`
avoiding `m` either avoids `m ++ [(id, v)]` outright, or its last pass
through `id` yields a path from a static successor of `id`. -/
lemma ReachAvoid.insertRecorded {P : Params} {m : PMap} {id : String} {v : ℚ}
    {a x : String} (hax : ReachAvoid P m a x) (hx : x ≠ id) :
    ReachAvoid P (m ++ [(id, v)]) a x ∨
      ∃ y, Edge P id y ∧ ReachAvoid P (m ++ [(id, v)]) y x := by
  induction hax with
  | refl z hz =>
    left
    refine .refl z ?_
    rw [lookup_append_none hz, lookup_singleton_ne hx v]
  | step z y w hz hedge hyw ih =>
    by_cases hzid : z = id
    · subst hzid
      rcases ih hx with h | h
      · exact Or.inr ⟨y, hedge, h⟩
      · exact Or.inr h
    · rcases ih hx with h | h
      · refine Or.inl (.step z y w ?_ hedge h)
        rw [lookup_append_none hz, lookup_singleton_ne hzid v]
      · exact Or.inr h

/-!
## Branch lemmas for one unfolding of `recursiveTester`
-/

lemma recursiveTester_succ (P : Params) (fuel : ℕ) :
    recursiveTester P (fuel + 1) = recursiveTesterStep P (recursiveTester P fuel) := rfl

lemma recursiveTesterStep_memo {P : Params} {w : String → PMap → RunResult PMap}
    {GOid : String} {pValues : PMap} {v : ℚ} (h : pValues.lookup GOid = some v) :
    recursiveTesterStep P w GOid pValues = .ok pValues := by
  unfold recursiveTesterStep
  rw [if_pos (by simp [h])]

lemma recursiveTesterStep_dangling {P : Params} {w : String → PMap → RunResult PMap}
    {GOid : String} {pValues : PMap} (h1 : pValues.lookup GOid = none)
    (h2 : P.GOdict.lookup GOid = none) :
    recursiveTesterStep P w GOid pValues = .keyError GOid := by
  unfold recursiveTesterStep
  rw [if_neg (by simp [h1]), h2]

lemma recursiveTesterStep_lowEvidence {P : Params} {w : String → PMap → RunResult PMap}
    {GOid : String} {pValues : PMap} {term : GOterm} (h1 : pValues.lookup GOid = none)
    (h2 : P.GOdict.lookup GOid = some term) (h3 : bgHits P GOid term < P.minGenes) :
    recursiveTesterStep P w GOid pValues = walkList w term.parents pValues := by
  unfold recursiveTesterStep
  rw [if_neg (by simp [h1]), h2]
  exact if_pos h3

lemma recursiveTesterStep_significant {P : Params} {w : String → PMap → RunResult PMap}
    {GOid : String} {pValues : PMap} {term : GOterm} (h1 : pValues.lookup GOid = none)
    (h2 : P.GOdict.lookup GOid = some term) (h3 : ¬ bgHits P GOid term < P.minGenes)
    (h4 : ¬ P.threshold < pValOf P GOid term) :
    recursiveTesterStep P w GOid pValues
      = .ok (pValues ++ [(GOid, pValOf P GOid term)]) := by
  unfold recursiveTesterStep
  rw [if_neg (by simp [h1]), h2]
  simp only [bgHits, subHits, pValOf, validTermsOf] at h3 h4 ⊢
  rw [if_neg h3, if_neg h4]

lemma recursiveTesterStep_notSignificant {P : Params} {w : String → PMap → RunResult PMap}
    {GOid : String} {pValues : PMap} {term : GOterm} (h1 : pValues.lookup GOid = none)
    (h2 : P.GOdict.lookup GOid = some term) (h3 : ¬ bgHits P GOid term < P.minGenes)
    (h4 : P.threshold < pValOf P GOid term) :
    recursiveTesterStep P w GOid pValues
      = walkList w term.parents (pValues ++ [(GOid, pValOf P GOid term)]) := by
  unfold recursiveTesterStep
  rw [if_neg (by simp [h1]), h2]
  simp only [bgHits, subHits, pValOf, validTermsOf] at h3 h4 ⊢
  rw [if_neg h3, if_pos h4]

lemma records_iff {P : Params} {GOid : String} {term : GOterm}
    (h : P.GOdict.lookup GOid = some term) :
    Records P GOid ↔ P.minGenes ≤ bgHits P GOid term := by
  constructor
  · rintro ⟨t, ht, hle⟩
    rw [h] at ht
    injection ht with ht
    subst ht
    exact hle
  · intro hle
    exact ⟨term, h, hle⟩

lemma edge_iff {P : Params} {GOid : String} {term : GOterm}
    (h : P.GOdict.lookup GOid = some term) (p : String) :
    Edge P GOid p ↔ p ∈ term.parents ∧
      (bgHits P GOid term < P.minGenes ∨ P.threshold < pValOf P GOid term) := by
  constructor
  · rintro ⟨t, ht, hp, hd⟩
    rw [h] at ht
    injection ht with ht
    subst ht
    exact ⟨hp, hd⟩
  · rintro ⟨hp, hd⟩
    exact ⟨term, h, hp, hd⟩

lemma pValAt_eq {P : Params} {GOid : String} {term : GOterm}
    (h : P.GOdict.lookup GOid = some term) : pValAt P GOid = pValOf P GOid term := by
  unfold pValAt
  rw [h]

/-- List-level version of the walk characterisation, for any walker
whose single runs satisfy the characterisation. -/
lemma walkListSpecOf (P : Params) (w : String → PMap → RunResult PMap)
    (hw : ∀ GOid m r, w GOid m = .ok r → WalkSpec P m (ReachAvoid P m GOid) r) :
    ∀ (L : List String) (m r : PMap),
      walkList w L m = .ok r →
      WalkSpec P m (fun x => ∃ a ∈ L, ReachAvoid P m a x) r := by
  intro L
  induction L with
  | nil =>
    intro m r h
    have hr : m = r := by
      rw [walkList] at h
      injection h
    subst hr
    intro x
    refine ⟨fun v hv => hv, fun hmx => ⟨?_, fun _ => hmx⟩⟩
    rintro ⟨⟨a, ha, _⟩, _⟩
    exact absurd ha (List.not_mem_nil a)
  | cons p ps ihL =>
    intro m r h
    rw [walkList] at h
    obtain ⟨r1, h1, h2⟩ := RunResult.bind_ok h
    have s1 := hw p m r1 h1
    have s2 := ihL r1 r h2
    have hmono1 := s1.keys_mono
    intro x
    refine ⟨?_, ?_⟩
    · intro v hv
      exact (s2 x).1 v ((s1 x).1 v hv)
    · intro hmx
      constructor
      · rintro ⟨⟨a, ha, hax⟩, hrec⟩
        rcases List.mem_cons.mp ha with rfl | ha'
        · have hr1 := ((s1 x).2 hmx).1 ⟨hax, hrec⟩
          exact (s2 x).1 _ hr1
        · cases hr1 : r1.lookup x with
          | some w =>
            obtain ⟨_, _, hw'⟩ := s1.of_new_key hmx hr1
            subst hw'
            exact (s2 x).1 _ hr1
          | none =>
            rcases ReachAvoid.extend s1 hax with hx1 | hx2
            · exact ((s2 x).2 hr1).1 ⟨⟨a, ha', hx1⟩, hrec⟩
            · have := ((s1 x).2 hmx).1 ⟨hx2, hrec⟩
              rw [hr1] at this
              exact absurd this (by simp)
      · intro hneg
        have hnp : ¬ (ReachAvoid P m p x ∧ Records P x) := by
          rintro ⟨hpx, hrec⟩
          exact hneg ⟨⟨p, List.mem_cons_self p ps, hpx⟩, hrec⟩
        have hr1 : r1.lookup x = none := ((s1 x).2 hmx).2 hnp
        refine ((s2 x).2 hr1).2 ?_
        rintro ⟨⟨a, ha, hax⟩, hrec⟩
        exact hneg ⟨⟨a, List.mem_cons_of_mem p ha, hax.shrink hmono1⟩, hrec⟩

/-- Characterisation of every successful `recursiveTester` run:
existing `pValues` entries are preserved, and a new entry appears
exactly for the recordable identifiers statically reachable from the
start (avoiding the memo), with the statically determined p-value. -/
theorem walkSpec (P : Params) : ∀ (fuel : ℕ) (GOid : String) (m r : PMap),
    recursiveTester P fuel GOid m = .ok r → WalkSpec P m (ReachAvoid P m GOid) r := by
  intro fuel
  induction fuel with
  | zero =>
    intro id m r h
    exact absurd h (by simp [recursiveTester])
  | succ n ih =>
    have listSpec := walkListSpecOf P (recursiveTester P n) ih
    intro id m r h
    rw [recursiveTester_succ] at h
    cases hm : m.lookup id with
    | some v =>
      rw [recursiveTesterStep_memo hm] at h
      injection h with h
      subst h
      intro x
      refine ⟨fun v hv => hv, fun hmx => ⟨?_, fun _ => hmx⟩⟩
      rintro ⟨hax, _⟩
      have := hax.start_not_mem
      rw [hm] at this
      exact absurd this (by simp)
    | none =>
      cases hg : P.GOdict.lookup id with
      | none =>
        rw [recursiveTesterStep_dangling hm hg] at h
        exact absurd h (by simp)
      | some term =>
        by_cases hbg : bgHits P id term < P.minGenes
        · rw [recursiveTesterStep_lowEvidence hm hg hbg] at h
          have S := listSpec term.parents m r h
          intro x
          refine ⟨(S x).1, ?_⟩
          intro hmx
          constructor
          · rintro ⟨hax, hrec⟩
            refine ((S x).2 hmx).1 ⟨?_, hrec⟩
            cases hax with
            | refl _ _ =>
              exfalso
              rcases hrec with ⟨t, ht, hle⟩
              rw [hg] at ht
              injection ht with ht
              subst ht
              omega
            | step _ y _ _ hedge hyx =>
              obtain ⟨hyp, _⟩ := (edge_iff hg y).mp hedge
              exact ⟨y, hyp, hyx⟩
          · intro hneg
            refine ((S x).2 hmx).2 ?_
            rintro ⟨⟨a, ha, hax⟩, hrec⟩
            exact hneg ⟨.step id a x hm ((edge_iff hg a).mpr ⟨ha, Or.inl hbg⟩) hax, hrec⟩
        · by_cases hth : P.threshold < pValOf P id term
          · rw [recursiveTesterStep_notSignificant hm hg hbg hth] at h
            have S := listSpec term.parents (m ++ [(id, pValOf P id term)]) r h
            have hm'id : (m ++ [(id, pValOf P id term)]).lookup id
                = some (pValOf P id term) := by
              rw [lookup_append_none hm, lookup_singleton_self]
            have hm'sub : ∀ z, (m ++ [(id, pValOf P id term)]).lookup z = none →
                m.lookup z = none := by
              intro z hz
              cases hmz : m.lookup z with
              | none => rfl
              | some w =>
                rw [lookup_append_some hmz] at hz
                exact absurd hz (by simp)
            intro x
            refine ⟨?_, ?_⟩
            · intro v hv
              exact (S x).1 v (lookup_append_some hv _)
            · intro hmx
              by_cases hxid : x = id
              · subst hxid
                constructor
                · rintro ⟨_, _⟩
                  rw [pValAt_eq hg]
                  exact (S x).1 _ hm'id
                · intro hneg
                  exact absurd ⟨.refl x hmx,
                    (records_iff hg).mpr (le_of_not_lt hbg)⟩ hneg
              · have hm'x : (m ++ [(id, pValOf P id term)]).lookup x = none := by
                  rw [lookup_append_none hmx, lookup_singleton_ne hxid]
                constructor
                · rintro ⟨hax, hrec⟩
                  refine ((S x).2 hm'x).1 ⟨?_, hrec⟩
                  rcases ReachAvoid.insertRecorded hax hxid with h' | ⟨y, hy, h'⟩
                  · exfalso
                    have := h'.start_not_mem
                    rw [hm'id] at this
                    exact absurd this (by simp)
                  · obtain ⟨hyp, _⟩ := (edge_iff hg y).mp hy
                    exact ⟨y, hyp, h'⟩
                · intro hneg
                  refine ((S x).2 hm'x).2 ?_
                  rintro ⟨⟨a, ha, hax⟩, hrec⟩
                  refine hneg ⟨?_, hrec⟩
                  exact .step id a x hm ((edge_iff hg a).mpr ⟨ha, Or.inr hth⟩)
                    (hax.shrink hm'sub)
          · rw [recursiveTesterStep_significant hm hg hbg hth] at h
            injection h with h
            subst h
            intro x
            refine ⟨?_, ?_⟩
            · intro v hv
              exact lookup_append_some hv _
            · intro hmx
              by_cases hxid : x = id
              · subst hxid
                constructor
                · rintro ⟨_, _⟩
                  rw [pValAt_eq hg, lookup_append_none hmx, lookup_singleton_self]
                · intro hneg
                  exact absurd ⟨.refl x hmx,
                    (records_iff hg).mpr (le_of_not_lt hbg)⟩ hneg
              · constructor
                · rintro ⟨hax, hrec⟩
                  exfalso
                  cases hax with
                  | refl _ _ => exact hxid rfl
                  | step _ y _ _ hedge _ =>
                    obtain ⟨_, hd⟩ := (edge_iff hg y).mp hedge
                    rcases hd with hd | hd
                    · omega
                    · exact hth hd
                · intro _
                  rw [lookup_append_none hmx, lookup_singleton_ne hxid]

/-- The walk characterisation for a whole frontier list of starting
identifiers, as run by the driver. -/
theorem walkListSpec (P : Params) (fuel : ℕ) :
    ∀ (L : List String) (m r : PMap),
      walkList (recursiveTester P fuel) L m = .ok r →
      WalkSpec P m (fun x => ∃ a ∈ L, ReachAvoid P m a x) r :=
  walkListSpecOf P (recursiveTester P fuel) (walkSpec P fuel)

/-!
## Claim theorems
-/

/-- C2: invoking `recursiveTester` on a term that already has an entry
in `pValues` returns the accumulator unchanged and immediately — it
succeeds even with zero budget for nested recursive calls (`fuel + 1`
arbitrary, including `fuel = 0`), so no parent is visited and nothing
is added; moreover any successful invocation (on any term, with any
fuel) preserves every existing entry unchanged, so an entry, once
written, is never overwritten and each term is recorded at most once
per run. -/
theorem recursiveTester_memoized (P : Params) (fuel : ℕ) (GOid : String)
    (pValues : PMap) (v : ℚ) (hv : pValues.lookup GOid = some v) :
    recursiveTester P (fuel + 1) GOid pValues = .ok pValues ∧
    (∀ (fuel' : ℕ) (start : String) (r : PMap) (x : String) (w : ℚ),
      recursiveTester P fuel' start pValues = .ok r →
      pValues.lookup x = some w → r.lookup x = some w) := by
  constructor
  · rw [recursiveTester_succ, recursiveTesterStep_memo hv]
  · intro fuel' start r x w hrun hx
    exact ((walkSpec P fuel' start pValues r hrun) x).1 w hx

/-- Witness for `recursiveTester_memoized` on a one-entry map. -/
theorem recursiveTester_memoized_witness :
    ([("GO:1", (1 : ℚ))] : PMap).lookup "GO:1" = some 1 ∧
    (recursiveTester ⟨0, 0, [], [], [], 3, 1/20⟩ 1 "GO:1" [("GO:1", (1 : ℚ))]
        = .ok [("GO:1", (1 : ℚ))] ∧
      (∀ (fuel' : ℕ) (start : String) (r : PMap) (x : String) (w : ℚ),
        recursiveTester ⟨0, 0, [], [], [], 3, 1/20⟩ fuel' start [("GO:1", (1 : ℚ))] = .ok r →
        ([("GO:1", (1 : ℚ))] : PMap).lookup x = some w → r.lookup x = some w)) :=
  ⟨rfl, recursiveTester_memoized ⟨0, 0, [], [], [], 3, 1/20⟩ 0 "GO:1" [("GO:1", 1)] 1 rfl⟩

/-- C1: invoking `recursiveTester` on a term with no entry yet: if the
background association count of `{GOid} ∪ childs` is below `minGenes`,
no entry for the term is ever added (even by the recursive calls) and
the invocation is exactly the walk over all parents; otherwise the
p-value `enrichmentOneSided(subsetGO, backgroundTotal, backgroundGO,
subsetTotal)` is recorded under the term, and the walker continues
into the walk over all parents if that p-value exceeds `threshold`
while for a p-value at or below `threshold` it stops, returning with
only the new entry appended. -/
theorem recursiveTester_fresh (P : Params) (fuel : ℕ) (GOid : String)
    (pValues : PMap) (term : GOterm)
    (hmem : pValues.lookup GOid = none)
    (hterm : P.GOdict.lookup GOid = some term) :
    (bgHits P GOid term < P.minGenes →
      recursiveTester P (fuel + 1) GOid pValues
        = walkList (recursiveTester P fuel) term.parents pValues ∧
      (∀ r, recursiveTester P (fuel + 1) GOid pValues = .ok r →
        r.lookup GOid = none)) ∧
    (P.minGenes ≤ bgHits P GOid term →
      (∀ r, recursiveTester P (fuel + 1) GOid pValues = .ok r →
        r.lookup GOid = some (pValOf P GOid term)) ∧
      (pValOf P GOid term ≤ P.threshold →
        recursiveTester P (fuel + 1) GOid pValues
          = .ok (pValues ++ [(GOid, pValOf P GOid term)])) ∧
      (P.threshold < pValOf P GOid term →
        recursiveTester P (fuel + 1) GOid pValues
          = walkList (recursiveTester P fuel) term.parents
              (pValues ++ [(GOid, pValOf P GOid term)]))) := by
  constructor
  · intro hbg
    constructor
    · rw [recursiveTester_succ, recursiveTesterStep_lowEvidence hmem hterm hbg]
    · intro r hrun
      have S := walkSpec P (fuel + 1) GOid pValues r hrun
      refine ((S GOid).2 hmem).2 ?_
      rintro ⟨_, hrec⟩
      rw [records_iff hterm] at hrec
      omega
  · intro hbg
    have hbg' : ¬ bgHits P GOid term < P.minGenes := by omega
    refine ⟨?_, ?_, ?_⟩
    · intro r hrun
      have S := walkSpec P (fuel + 1) GOid pValues r hrun
      have hlook := ((S GOid).2 hmem).1 ⟨.refl GOid hmem, (records_iff hterm).mpr hbg⟩
      rw [pValAt_eq hterm] at hlook
      exact hlook
    · intro hsig
      rw [recursiveTester_succ,
        recursiveTesterStep_significant hmem hterm hbg' (not_lt.mpr hsig)]
    · intro hsig
      rw [recursiveTester_succ, recursiveTesterStep_notSignificant hmem hterm hbg' hsig]

/-- C10: the driver consults `background` and `subset` only through
their cardinalities (`len`), never their membership: runs whose gene
sets agree in size (all other inputs equal) return identical results. -/
theorem enrichmentAnalysis_size_only (fuel : ℕ)
    (background1 background2 subset1 subset2 : Finset String)
    (GOdict : GOGraph) (gafDict gafSubset : Gaf) (minGenes : ℕ) (threshold : ℚ)
    (hb : background1.card = background2.card) (hs : subset1.card = subset2.card) :
    enrichmentAnalysis fuel background1 subset1 GOdict gafDict gafSubset minGenes threshold
      = enrichmentAnalysis fuel background2 subset2 GOdict gafDict gafSubset minGenes
          threshold := by
  unfold enrichmentAnalysis
  rw [hb, hs]

/-- Witness for `enrichmentAnalysis_size_only` on two distinct
singleton gene sets. -/
theorem enrichmentAnalysis_size_only_witness :
    ({"geneA"} : Finset String).card = ({"geneB"} : Finset String).card ∧
    ({"geneC"} : Finset String).card = ({"geneD"} : Finset String).card ∧
    enrichmentAnalysis 5 {"geneA"} {"geneC"} [("GO:1", ⟨[], ∅⟩)] [] [] 3 (1/20)
      = enrichmentAnalysis 5 {"geneB"} {"geneD"} [("GO:1", ⟨[], ∅⟩)] [] [] 3 (1/20) :=
  ⟨rfl, rfl,
    enrichmentAnalysis_size_only 5 {"geneA"} {"geneB"} {"geneC"} {"geneD"}
      [("GO:1", ⟨[], ∅⟩)] [] [] 3 (1/20) rfl rfl⟩

/-- Witness for `recursiveTester_fresh` at the term `"T"` of
`exampleParams` with an empty accumulator. -/
theorem recursiveTester_fresh_witness :
    (([] : PMap).lookup "T" = none ∧
      exampleParams.GOdict.lookup "T" = some ⟨[], ∅⟩) ∧
    ((bgHits exampleParams "T" ⟨[], ∅⟩ < exampleParams.minGenes →
      recursiveTester exampleParams 1 "T" []
        = walkList (recursiveTester exampleParams 0) ([] : List String) [] ∧
      (∀ r, recursiveTester exampleParams 1 "T" [] = .ok r →
        r.lookup "T" = none)) ∧
    (exampleParams.minGenes ≤ bgHits exampleParams "T" ⟨[], ∅⟩ →
      (∀ r, recursiveTester exampleParams 1 "T" [] = .ok r →
        r.lookup "T" = some (pValOf exampleParams "T" ⟨[], ∅⟩)) ∧
      (pValOf exampleParams "T" ⟨[], ∅⟩ ≤ exampleParams.threshold →
        recursiveTester exampleParams 1 "T" []
          = .ok ([] ++ [("T", pValOf exampleParams "T" ⟨[], ∅⟩)])) ∧
      (exampleParams.threshold < pValOf exampleParams "T" ⟨[], ∅⟩ →
        recursiveTester exampleParams 1 "T" []
          = walkList (recursiveTester exampleParams 0) ([] : List String)
              ([] ++ [("T", pValOf exampleParams "T" ⟨[], ∅⟩)])))) :=
  ⟨⟨rfl, rfl⟩, recursiveTester_fresh exampleParams 0 "T" [] ⟨[], ∅⟩ rfl rfl⟩

/-!
## Fuel monotonicity and termination
-/

lemma lookup_mem_graph {l : GOGraph} {GOid : String} {t : GOterm}
    (h : l.lookup GOid = some t) : (GOid, t) ∈ l := by
  induction l with
  | nil => simp [List.lookup] at h
  | cons e rest ih =>
    obtain ⟨k, v⟩ := e
    by_cases hk : k = GOid
    · subst hk
      simp [List.lookup] at h
      subst h
      exact List.mem_cons_self _ _
    · have hk' : (GOid == k) = false := beq_eq_false_iff_ne.mpr (Ne.symm hk)
      simp [List.lookup, hk'] at h
      exact List.mem_cons_of_mem _ (ih h)

/-- Enough fuel is stable: a non-divergent outcome is unchanged by one
more unit of fuel (walker and list-walk versions). -/
lemma recursiveTester_fuel_mono (P : Params) : ∀ fuel : ℕ,
    (∀ GOid m, recursiveTester P fuel GOid m ≠ .diverge →
      recursiveTester P (fuel + 1) GOid m = recursiveTester P fuel GOid m) ∧
    (∀ (L : List String) m, walkList (recursiveTester P fuel) L m ≠ .diverge →
      walkList (recursiveTester P (fuel + 1)) L m
        = walkList (recursiveTester P fuel) L m) := by
  intro fuel
  induction fuel with
  | zero =>
    constructor
    · intro id m h
      exact absurd rfl h
    · intro L m h
      cases L with
      | nil => rfl
      | cons a L' => exact absurd rfl h
  | succ n ih =>
    have walkCase : ∀ GOid m, recursiveTester P (n + 1) GOid m ≠ .diverge →
        recursiveTester P (n + 1 + 1) GOid m = recursiveTester P (n + 1) GOid m := by
      intro id m h
      rw [recursiveTester_succ P n] at h
      show recursiveTesterStep P (recursiveTester P (n + 1)) id m
        = recursiveTesterStep P (recursiveTester P n) id m
      cases hm : m.lookup id with
      | some v => rw [recursiveTesterStep_memo hm, recursiveTesterStep_memo hm]
      | none =>
        cases hg : P.GOdict.lookup id with
        | none =>
          rw [recursiveTesterStep_dangling hm hg, recursiveTesterStep_dangling hm hg]
        | some term =>
          by_cases hbg : bgHits P id term < P.minGenes
          · rw [recursiveTesterStep_lowEvidence hm hg hbg,
              recursiveTesterStep_lowEvidence hm hg hbg]
            rw [recursiveTesterStep_lowEvidence hm hg hbg] at h
            exact ih.2 term.parents m h
          · by_cases hth : P.threshold < pValOf P id term
            · rw [recursiveTesterStep_notSignificant hm hg hbg hth,
                recursiveTesterStep_notSignificant hm hg hbg hth]
              rw [recursiveTesterStep_notSignificant hm hg hbg hth] at h
              exact ih.2 term.parents _ h
            · rw [recursiveTesterStep_significant hm hg hbg hth,
                recursiveTesterStep_significant hm hg hbg hth]
    refine ⟨walkCase, ?_⟩
    intro L
    induction L with
    | nil => intro m _; rfl
    | cons a L' ihL =>
      intro m h
      rw [walkList] at h ⊢
      rw [walkList]
      cases ha : recursiveTester P (n + 1) a m with
      | diverge =>
        rw [ha] at h
        exact absurd rfl h
      | keyError k =>
        rw [walkCase a m (by rw [ha]; simp), ha]
        rfl
      | ok r1 =>
        rw [walkCase a m (by rw [ha]; simp), ha]
        simp only [RunResult.bind]
        rw [ha] at h
        simp only [RunResult.bind] at h
        exact ihL r1 h

/-- Stability under any amount of extra fuel. -/
lemma recursiveTester_fuel_le (P : Params) {fuel fuel' : ℕ} (hle : fuel ≤ fuel')
    (GOid : String) (m : PMap) (h : recursiveTester P fuel GOid m ≠ .diverge) :
    recursiveTester P fuel' GOid m = recursiveTester P fuel GOid m := by
  induction fuel', hle using Nat.le_induction with
  | base => rfl
  | succ k hk ihk =>
    rw [(recursiveTester_fuel_mono P k).1 GOid m (by rw [ihk]; exact h), ihk]

/-- With a rank function strictly decreasing along parent edges
(an acyclic parent relation), every invocation terminates: fuel
`rank + 1` already avoids divergence, from any accumulator. -/
lemma recursiveTester_terminates (P : Params) (rank : String → ℕ)
    (hrank : ∀ e ∈ P.GOdict, ∀ p ∈ e.2.parents, rank p < rank e.1) :
    ∀ (GOid : String) (m : PMap),
      recursiveTester P (rank GOid + 1) GOid m ≠ .diverge := by
  suffices H : ∀ n, ∀ GOid m, rank GOid ≤ n →
      recursiveTester P (n + 1) GOid m ≠ .diverge by
    intro id m
    exact H (rank id) id m le_rfl
  intro n
  induction n using Nat.strong_induction_on with
  | _ n ih =>
    intro id m hle
    have hlist : ∀ (L : List String),
        (∀ p ∈ L, ∀ m', recursiveTester P n p m' ≠ .diverge) →
        ∀ m', walkList (recursiveTester P n) L m' ≠ .diverge := by
      intro L
      induction L with
      | nil =>
        intro _ m'
        simp [walkList]
      | cons a L' ihL =>
        intro hall m'
        rw [walkList]
        cases ha : recursiveTester P n a m' with
        | diverge => exact absurd ha (hall a (List.mem_cons_self a L') m')
        | keyError k => simp [RunResult.bind]
        | ok r1 =>
          simp only [RunResult.bind]
          exact ihL (fun p hp => hall p (List.mem_cons_of_mem a hp)) r1
    have hparents : ∀ (term : GOterm), P.GOdict.lookup id = some term →
        ∀ m', walkList (recursiveTester P n) term.parents m' ≠ .diverge := by
      intro term hg
      have hmem := lookup_mem_graph hg
      refine hlist term.parents ?_
      intro p hp m'
      have hlt : rank p < rank id := hrank (id, term) hmem p hp
      have h1 : recursiveTester P (rank p + 1) p m' ≠ .diverge :=
        ih (rank p) (by omega) p m' le_rfl
      have h2 : recursiveTester P n p m' = recursiveTester P (rank p + 1) p m' :=
        recursiveTester_fuel_le P (by omega) p m' h1
      rw [h2]
      exact h1
    rw [recursiveTester_succ]
    cases hm : m.lookup id with
    | some v =>
      rw [recursiveTesterStep_memo hm]
      simp
    | none =>
      cases hg : P.GOdict.lookup id with
      | none =>
        rw [recursiveTesterStep_dangling hm hg]
        simp
      | some term =>
        by_cases hbg : bgHits P id term < P.minGenes
        · rw [recursiveTesterStep_lowEvidence hm hg hbg]
          exact hparents term hg m
        · by_cases hth : P.threshold < pValOf P id term
          · rw [recursiveTesterStep_notSignificant hm hg hbg hth]
            exact hparents term hg _
          · rw [recursiveTesterStep_significant hm hg hbg hth]
            simp

lemma cycParams_diverge : ∀ fuel : ℕ,
    recursiveTester cycParams fuel "A" [] = .diverge ∧
    recursiveTester cycParams fuel "B" [] = .diverge := by
  intro fuel
  induction fuel with
  | zero => exact ⟨rfl, rfl⟩
  | succ n ih =>
    constructor
    · rw [recursiveTester_succ, recursiveTesterStep_lowEvidence
        (show ([] : PMap).lookup "A" = none from rfl)
        (show cycParams.GOdict.lookup "A" = some ⟨["B"], ∅⟩ from rfl) (by decide)]
      rw [walkList, ih.2]
      rfl
    · rw [recursiveTester_succ, recursiveTesterStep_lowEvidence
        (show ([] : PMap).lookup "B" = none from rfl)
        (show cycParams.GOdict.lookup "B" = some ⟨["A"], ∅⟩ from rfl) (by decide)]
      rw [walkList, ih.1]
      rfl

/-- C3 counterexample: on the cyclic graph `A ⇄ B` of `cycParams` the
invocation of the walker on `"A"` with an empty result map never
terminates — no amount of fuel produces an outcome other than
divergence.  The memo check alone does not prevent infinite recursion
on a cyclic graph, because the insufficient-evidence branch recurses
into parents without recording anything. -/
theorem recursiveTester_cycle_counterexample :
    ¬ ∃ fuel : ℕ, recursiveTester cycParams fuel "A" [] ≠ .diverge := by
  rintro ⟨fuel, h⟩
  exact h (cycParams_diverge fuel).1

/-- C3 amended: termination of the walker is guaranteed only when the
parent relation is acyclic (admits a rank function strictly decreasing
from child to parent); under that assumption every invocation, on any
term and any accumulator, terminates.  (On cyclic graphs an invocation
can diverge — see the counterexample — since the memo bounds recursion
only through *recorded* terms and the insufficient-evidence branch
records nothing.) -/
theorem recursiveTester_terminates_acyclic (P : Params) (rank : String → ℕ)
    (hrank : ∀ e ∈ P.GOdict, ∀ p ∈ e.2.parents, rank p < rank e.1)
    (GOid : String) (m : PMap) :
    ∃ fuel : ℕ, recursiveTester P fuel GOid m ≠ .diverge :=
  ⟨rank GOid + 1, recursiveTester_terminates P rank hrank GOid m⟩

/-- Witness for `recursiveTester_terminates_acyclic` on the acyclic
two-term graph, with the explicit rank function. -/
theorem recursiveTester_terminates_acyclic_witness :
    (∀ e ∈ acyclicParams.GOdict, ∀ p ∈ e.2.parents,
      (fun id => if id = "L" then 1 else 0 : String → ℕ) p
        < (fun id => if id = "L" then 1 else 0 : String → ℕ) e.1) ∧
    ∃ fuel : ℕ, recursiveTester acyclicParams fuel "L" [] ≠ .diverge :=
  ⟨by decide,
    recursiveTester_terminates_acyclic acyclicParams
      (fun id => if id = "L" then 1 else 0) (by decide) "L" []⟩

/-!
## Key-error freedom on closed graphs, and the base GO id list
-/

/-- On a graph whose parent references all resolve, the walker never
raises `KeyError` when started on a term present in the graph. -/
lemma recursiveTester_no_keyError (P : Params)
    (hclosed : ∀ e ∈ P.GOdict, ∀ p ∈ e.2.parents, (P.GOdict.lookup p).isSome) :
    ∀ (fuel : ℕ) (GOid : String) (m : PMap), (P.GOdict.lookup GOid).isSome →
      ∀ k, recursiveTester P fuel GOid m ≠ .keyError k := by
  intro fuel
  induction fuel with
  | zero =>
    intro id m _ k
    simp [recursiveTester]
  | succ n ih =>
    intro id m hid k
    have hlist : ∀ (L : List String), (∀ p ∈ L, (P.GOdict.lookup p).isSome) →
        ∀ m', walkList (recursiveTester P n) L m' ≠ .keyError k := by
      intro L
      induction L with
      | nil =>
        intro _ m'
        simp [walkList]
      | cons a L' ihL =>
        intro hall m'
        rw [walkList]
        cases ha : recursiveTester P n a m' with
        | diverge => simp [RunResult.bind]
        | keyError k' =>
          exact absurd ha (ih a m' (hall a (List.mem_cons_self a L')) k')
        | ok r1 =>
          simp only [RunResult.bind]
          exact ihL (fun p hp => hall p (List.mem_cons_of_mem a hp)) r1
    rw [recursiveTester_succ]
    cases hm : m.lookup id with
    | some v =>
      rw [recursiveTesterStep_memo hm]
      simp
    | none =>
      cases hg : P.GOdict.lookup id with
      | none =>
        rw [hg] at hid
        simp at hid
      | some term =>
        have hp : ∀ p ∈ term.parents, (P.GOdict.lookup p).isSome :=
          fun p hp => hclosed (id, term) (lookup_mem_graph hg) p hp
        by_cases hbg : bgHits P id term < P.minGenes
        · rw [recursiveTesterStep_lowEvidence hm hg hbg]
          exact hlist term.parents hp m
        · by_cases hth : P.threshold < pValOf P id term
          · rw [recursiveTesterStep_notSignificant hm hg hbg hth]
            exact hlist term.parents hp _
          · rw [recursiveTesterStep_significant hm hg hbg hth]
            simp

/-- On annotation lists whose terms all resolve, the per-gene part of
the comprehension returns the leaf-filtered list. -/
lemma baseGOidsOfGene_eq (GOdict : GOGraph) : ∀ (L : List String),
    (∀ t ∈ L, (GOdict.lookup t).isSome) →
    baseGOidsOfGene GOdict L = .ok (L.filter (isLeaf GOdict)) := by
  intro L
  induction L with
  | nil => intro _; rfl
  | cons a L' ih =>
    intro hall
    have ha := hall a (List.mem_cons_self a L')
    rw [Option.isSome_iff_exists] at ha
    obtain ⟨term, hterm⟩ := ha
    have ih' := ih fun t ht => hall t (List.mem_cons_of_mem a ht)
    rw [List.filter_cons]
    simp only [baseGOidsOfGene, hterm, ih', RunResult.bind]
    by_cases hc : term.childs = ∅
    · simp [isLeaf, hterm, hc]
    · simp [isLeaf, hterm, hc]

/-- The full comprehension on a consistent subset annotation map. -/
lemma baseGOids_eq (GOdict : GOGraph) : ∀ (gafSubset : Gaf),
    (∀ e ∈ gafSubset, ∀ t ∈ e.2, (GOdict.lookup t).isSome) →
    baseGOids GOdict gafSubset
      = .ok (gafSubset.flatMap fun e => e.2.filter (isLeaf GOdict)) := by
  intro gafSubset
  induction gafSubset with
  | nil => intro _; rfl
  | cons e rest ih =>
    intro hall
    obtain ⟨gene, L⟩ := e
    have h1 := baseGOidsOfGene_eq GOdict L
      (fun t ht => hall (gene, L) (List.mem_cons_self _ _) t ht)
    have h2 := ih fun e' he' => hall e' (List.mem_cons_of_mem _ he')
    simp only [baseGOids, h1, h2, RunResult.bind, List.flatMap_cons]

lemma isLeaf_isSome {GOdict : GOGraph} {t : String} (h : isLeaf GOdict t = true) :
    (GOdict.lookup t).isSome := by
  unfold isLeaf at h
  cases hg : GOdict.lookup t with
  | none =>
    rw [hg] at h
    simp at h
  | some term => simp

lemma rank_le_maxRankOf (rank : String → ℕ) :
    ∀ (GOdict : GOGraph) {t : String} {term : GOterm},
    (t, term) ∈ GOdict → rank t ≤ maxRankOf GOdict rank := by
  intro GOdict
  induction GOdict with
  | nil =>
    intro t term hmem
    simp at hmem
  | cons e rest ih =>
    intro t term hmem
    simp only [maxRankOf, List.map_cons, List.foldr_cons]
    rcases List.mem_cons.mp hmem with heq | hmem'
    · rw [← heq]
      exact le_max_left _ _
    · exact le_trans (ih hmem') (le_max_right _ _)

lemma walkList_ok (P : Params) (fuel : ℕ) : ∀ (L : List String) (m : PMap),
    (∀ p ∈ L, ∀ m', recursiveTester P fuel p m' ≠ .diverge ∧
      ∀ k, recursiveTester P fuel p m' ≠ .keyError k) →
    ∃ r, walkList (recursiveTester P fuel) L m = .ok r := by
  intro L
  induction L with
  | nil =>
    intro m _
    exact ⟨m, rfl⟩
  | cons a L' ihL =>
    intro m hall
    rw [walkList]
    cases ha : recursiveTester P fuel a m with
    | diverge => exact absurd ha (hall a (List.mem_cons_self a L') m).1
    | keyError k => exact absurd ha ((hall a (List.mem_cons_self a L') m).2 k)
    | ok r1 =>
      simp only [RunResult.bind]
      exact ihL r1 fun p hp => hall p (List.mem_cons_of_mem a hp)

/-- C7 counterexample: an empty term graph with a non-empty subset
annotation map raises `KeyError` (here on `"GO:1"`) instead of
completing — the claim's "empty graph" case is not raise-free. -/
theorem enrichmentAnalysis_emptyGraph_counterexample :
    enrichmentAnalysis 5 {"geneA"} ∅ [] [] [("geneA", ["GO:1"])] 3 (1/20)
      = .keyError "GO:1" := rfl

/-- C7 amended: empty inputs complete without raising except for
dangling annotation references.  (1) With an empty subset annotation
map — in particular when the graph and annotations are both empty —
the driver returns the empty result map, for any gene sets including
empty ones.  (2) For any gene sets, including an empty background or
an empty subset set, the driver completes without raising on a graph
whose parent and annotation references all resolve and whose parent
relation is acyclic.  An empty graph with non-empty subset annotations
instead raises `KeyError` (see the counterexample). -/
theorem enrichmentAnalysis_empty_inputs :
    (∀ (fuel : ℕ) (background subset : Finset String) (GOdict : GOGraph)
        (gafDict : Gaf) (minGenes : ℕ) (threshold : ℚ),
      enrichmentAnalysis fuel background subset GOdict gafDict [] minGenes threshold
        = .ok []) ∧
    (∀ (background subset : Finset String) (GOdict : GOGraph)
        (gafDict gafSubset : Gaf) (minGenes : ℕ) (threshold : ℚ) (rank : String → ℕ),
      (∀ e ∈ GOdict, ∀ p ∈ e.2.parents, (GOdict.lookup p).isSome) →
      (∀ e ∈ gafSubset, ∀ t ∈ e.2, (GOdict.lookup t).isSome) →
      (∀ e ∈ GOdict, ∀ p ∈ e.2.parents, rank p < rank e.1) →
      ∃ (fuel : ℕ) (r : PMap),
        enrichmentAnalysis fuel background subset GOdict gafDict gafSubset minGenes
          threshold = .ok r) := by
  constructor
  · intro fuel background subset GOdict gafDict minGenes threshold
    rfl
  · intro background subset GOdict gafDict gafSubset minGenes threshold rank
      hpar hann hrank
    have hbase := baseGOids_eq GOdict gafSubset hann
    have hmemids : ∀ t ∈ gafSubset.flatMap fun e => e.2.filter (isLeaf GOdict),
        (GOdict.lookup t).isSome := by
      intro t ht
      rw [List.mem_flatMap] at ht
      obtain ⟨e, _, ht'⟩ := ht
      exact isLeaf_isSome (List.of_mem_filter ht')
    refine ⟨maxRankOf GOdict rank + 1, ?_⟩
    have hok : ∃ r, walkList
        (recursiveTester
          ⟨background.card, subset.card, GOdict, gafDict, gafSubset, minGenes, threshold⟩
          (maxRankOf GOdict rank + 1))
        (gafSubset.flatMap fun e => e.2.filter (isLeaf GOdict)) [] = .ok r := by
      apply walkList_ok
      intro p hp m'
      have hpsome := hmemids p hp
      rw [Option.isSome_iff_exists] at hpsome
      obtain ⟨term, hterm⟩ := hpsome
      constructor
      · have h1 : recursiveTester
            ⟨background.card, subset.card, GOdict, gafDict, gafSubset, minGenes, threshold⟩
            (rank p + 1) p m' ≠ .diverge :=
          recursiveTester_terminates _ rank hrank p m'
        have hle : rank p + 1 ≤ maxRankOf GOdict rank + 1 := by
          have := rank_le_maxRankOf rank GOdict (lookup_mem_graph hterm)
          omega
        rw [recursiveTester_fuel_le _ hle p m' h1]
        exact h1
      · intro k
        exact recursiveTester_no_keyError _ hpar (maxRankOf GOdict rank + 1) p m'
          (by simp [hterm]) k
    obtain ⟨r, hr⟩ := hok
    refine ⟨r, ?_⟩
    unfold enrichmentAnalysis
    rw [hbase]
    exact hr

/-- Witness for `enrichmentAnalysis_empty_inputs`: all-empty inputs,
and empty gene sets on the consistent acyclic two-term graph. -/
theorem enrichmentAnalysis_empty_inputs_witness :
    enrichmentAnalysis 0 ∅ ∅ [] [] [] 3 (1/20) = .ok [] ∧
    ∃ (fuel : ℕ) (r : PMap),
      enrichmentAnalysis fuel ∅ ∅ acyclicParams.GOdict [] [("gene1", ["L"])] 3 (1/20)
        = .ok r :=
  ⟨enrichmentAnalysis_empty_inputs.1 0 ∅ ∅ [] [] 3 (1/20),
    enrichmentAnalysis_empty_inputs.2 ∅ ∅ acyclicParams.GOdict [] [("gene1", ["L"])] 3
      (1/20) (fun id => if id = "L" then 1 else 0) (by decide) (by decide) (by decide)⟩

lemma count_flatMap_filter (GOdict : GOGraph) (t : String) :
    ∀ gafSubset : Gaf,
    (gafSubset.flatMap fun e => e.2.filter (isLeaf GOdict)).count t
      = if isLeaf GOdict t then (gafSubset.map fun e => e.2.count t).sum else 0 := by
  intro g
  induction g with
  | nil =>
    by_cases h : isLeaf GOdict t <;> simp [h]
  | cons e rest ih =>
    simp only [List.flatMap_cons, List.count_append, List.map_cons, List.sum_cons, ih]
    by_cases h : isLeaf GOdict t
    · simp [h, List.count_filter]
    · have hz : (e.2.filter (isLeaf GOdict)).count t = 0 := by
        rw [List.count_eq_zero]
        intro hmem
        exact absurd (List.of_mem_filter hmem) (by simp [h])
      simp [h, hz]

/-- C4 counterexample: with the single leaf term `"GO:1"` annotated to
two subset genes, the frontier list produced by the driver's
comprehension contains `"GO:1"` twice, so the walker is invoked twice
for this frontier term — not once per frontier term as claimed (the
comprehension iterates over (gene, annotation) pairs, not over the set
of term identifiers). -/
theorem enrichmentAnalysis_frontier_counterexample :
    baseGOids [("GO:1", ⟨[], ∅⟩)] [("geneA", ["GO:1"]), ("geneB", ["GO:1"])]
      = .ok ["GO:1", "GO:1"] ∧
    (["GO:1", "GO:1"] : List String).count "GO:1" ≠ 1 := by
  constructor
  · rfl
  · decide

/-- C4 amended: on a subset annotation map whose terms all resolve,
the driver's frontier is the concatenation, over the (gene,
annotations) entries, of each annotation list restricted to terms with
no descendants; its members are exactly the identifiers annotated to
at least one subset gene and having an empty descendant set, but each
occurs once per annotating gene (so the walker is invoked once per
occurrence, possibly several times per term); the driver runs the
walker over this list against the single shared initially-empty result
map and returns the accumulated outcome. -/
theorem enrichmentAnalysis_frontier (GOdict : GOGraph) (gafSubset : Gaf)
    (hann : ∀ e ∈ gafSubset, ∀ t ∈ e.2, (GOdict.lookup t).isSome) :
    ∃ ids, baseGOids GOdict gafSubset = .ok ids ∧
      (∀ t, t ∈ ids ↔ (∃ e ∈ gafSubset, t ∈ e.2) ∧
        ∃ term, GOdict.lookup t = some term ∧ term.childs = ∅) ∧
      (∀ t, ids.count t
        = if isLeaf GOdict t then (gafSubset.map fun e => e.2.count t).sum else 0) ∧
      (∀ (fuel : ℕ) (background subset : Finset String) (gafDict : Gaf)
          (minGenes : ℕ) (threshold : ℚ),
        enrichmentAnalysis fuel background subset GOdict gafDict gafSubset minGenes
            threshold
          = walkList
              (recursiveTester
                ⟨background.card, subset.card, GOdict, gafDict, gafSubset, minGenes,
                  threshold⟩ fuel)
              ids []) := by
  refine ⟨_, baseGOids_eq GOdict gafSubset hann, ?_, ?_, ?_⟩
  · intro t
    rw [List.mem_flatMap]
    constructor
    · rintro ⟨e, he, ht⟩
      have h1 := List.mem_of_mem_filter ht
      have h2 := List.of_mem_filter ht
      refine ⟨⟨e, he, h1⟩, ?_⟩
      unfold isLeaf at h2
      cases hg : GOdict.lookup t with
      | none =>
        rw [hg] at h2
        simp at h2
      | some term =>
        rw [hg] at h2
        simp at h2
        exact ⟨term, rfl, h2⟩
    · rintro ⟨⟨e, he, ht⟩, term, hterm, hc⟩
      refine ⟨e, he, List.mem_filter.mpr ⟨ht, ?_⟩⟩
      unfold isLeaf
      rw [hterm]
      simpa using hc
  · intro t
    exact count_flatMap_filter GOdict t gafSubset
  · intro fuel background subset gafDict minGenes threshold
    unfold enrichmentAnalysis
    rw [baseGOids_eq GOdict gafSubset hann]
    rfl

/-- Witness for `enrichmentAnalysis_frontier` on the duplicated
annotation example. -/
theorem enrichmentAnalysis_frontier_witness :
    (∀ e ∈ ([("geneA", ["GO:1"]), ("geneB", ["GO:1"])] : Gaf), ∀ t ∈ e.2,
      (([("GO:1", ⟨[], ∅⟩)] : GOGraph).lookup t).isSome) ∧
    ∃ ids, baseGOids [("GO:1", ⟨[], ∅⟩)] [("geneA", ["GO:1"]), ("geneB", ["GO:1"])]
        = .ok ids ∧
      (∀ t, t ∈ ids ↔
        (∃ e ∈ ([("geneA", ["GO:1"]), ("geneB", ["GO:1"])] : Gaf), t ∈ e.2) ∧
        ∃ term, ([("GO:1", ⟨[], ∅⟩)] : GOGraph).lookup t = some term ∧
          term.childs = ∅) ∧
      (∀ t, ids.count t = if isLeaf [("GO:1", ⟨[], ∅⟩)] t
        then (([("geneA", ["GO:1"]), ("geneB", ["GO:1"])] : Gaf).map
          fun e => e.2.count t).sum else 0) ∧
      (∀ (fuel : ℕ) (background subset : Finset String) (gafDict : Gaf)
          (minGenes : ℕ) (threshold : ℚ),
        enrichmentAnalysis fuel background subset [("GO:1", ⟨[], ∅⟩)] gafDict
            [("geneA", ["GO:1"]), ("geneB", ["GO:1"])] minGenes threshold
          = walkList
              (recursiveTester
                ⟨background.card, subset.card, [("GO:1", ⟨[], ∅⟩)], gafDict,
                  [("geneA", ["GO:1"]), ("geneB", ["GO:1"])], minGenes, threshold⟩ fuel)
              ids []) :=
  ⟨by decide,
    enrichmentAnalysis_frontier [("GO:1", ⟨[], ∅⟩)]
      [("geneA", ["GO:1"]), ("geneB", ["GO:1"])] (by decide)⟩

lemma filter_length_forall₂ {α : Type} {R : α → α → Prop} {p : α → Bool}
    (hp : ∀ a b, R a b → p a = p b) :
    ∀ {l1 l2 : List α}, List.Forall₂ R l1 l2 →
      (l1.filter p).length = (l2.filter p).length := by
  intro l1 l2 h
  induction h with
  | nil => rfl
  | cons ha _ ih =>
    rw [List.filter_cons, List.filter_cons, hp _ _ ha]
    split
    · simp [ih]
    · exact ih

lemma countGOassociations_perm (validTerms : Finset String) {g1 g2 : Gaf}
    (h : GafPerm g1 g2) :
    countGOassociations validTerms g1 = countGOassociations validTerms g2 := by
  obtain ⟨g', hf, hp⟩ := h
  rw [countGOassociations_eq_length, countGOassociations_eq_length]
  have h1 : (g1.filter fun e => decide (∃ t ∈ e.2, t ∈ validTerms)).length
      = (g'.filter fun e => decide (∃ t ∈ e.2, t ∈ validTerms)).length := by
    refine filter_length_forall₂ ?_ hf
    rintro a b ⟨_, hpm⟩
    refine decide_eq_decide.mpr ?_
    constructor
    · rintro ⟨t, ht, hv⟩
      exact ⟨t, hpm.mem_iff.mp ht, hv⟩
    · rintro ⟨t, ht, hv⟩
      exact ⟨t, hpm.mem_iff.mpr ht, hv⟩
  have h2 := (hp.filter fun e => decide (∃ t ∈ e.2, t ∈ validTerms)).length_eq
  omega

lemma isLeaf_graphPerm {G1 G2 : GOGraph} (h : GraphPerm G1 G2) (t : String) :
    isLeaf G1 t = isLeaf G2 t := by
  rcases h t with ⟨h1, h2⟩ | ⟨t1, t2, h1, h2, _, hc⟩
  · simp [isLeaf, h1, h2]
  · simp [isLeaf, h1, h2, hc]

lemma baseList_perm {G1 G2 : GOGraph} (hG : GraphPerm G1 G2) {g1 g2 : Gaf}
    (hS : GafPerm g1 g2) :
    (g1.flatMap fun e => e.2.filter (isLeaf G1)).Perm
      (g2.flatMap fun e => e.2.filter (isLeaf G2)) := by
  obtain ⟨g', hf, hp⟩ := hS
  have hfun : isLeaf G1 = isLeaf G2 := funext (isLeaf_graphPerm hG)
  rw [hfun]
  refine List.Perm.trans ?_ (hp.flatMap_right fun e => e.2.filter (isLeaf G2))
  clear hp
  induction hf with
  | nil => exact List.Perm.refl _
  | cons ha _ ih =>
    simp only [List.flatMap_cons]
    exact List.Perm.append (ha.2.filter _) ih

lemma baseGOidsOfGene_ok_closed (GOdict : GOGraph) : ∀ (L l : List String),
    baseGOidsOfGene GOdict L = .ok l → ∀ t ∈ L, (GOdict.lookup t).isSome := by
  intro L
  induction L with
  | nil =>
    intro l _ t ht
    simp at ht
  | cons a L' ih =>
    intro l h t ht
    cases hg : GOdict.lookup a with
    | none =>
      simp only [baseGOidsOfGene, hg] at h
      exact absurd h (by simp)
    | some term =>
      rcases List.mem_cons.mp ht with rfl | ht'
      · simp [hg]
      · simp only [baseGOidsOfGene, hg] at h
        obtain ⟨l', hl', _⟩ := RunResult.bind_ok h
        exact ih l' hl' t ht'

lemma baseGOids_ok_closed (GOdict : GOGraph) : ∀ (g : Gaf) (l : List String),
    baseGOids GOdict g = .ok l → ∀ e ∈ g, ∀ t ∈ e.2, (GOdict.lookup t).isSome := by
  intro g
  induction g with
  | nil =>
    intro l _ e he
    simp at he
  | cons e0 rest ih =>
    intro l h e he t ht
    obtain ⟨gene, L⟩ := e0
    simp only [baseGOids] at h
    obtain ⟨l1, hl1, h2'⟩ := RunResult.bind_ok h
    obtain ⟨l2, hl2, _⟩ := RunResult.bind_ok h2'
    rcases List.mem_cons.mp he with rfl | he'
    · exact baseGOidsOfGene_ok_closed GOdict L l1 hl1 t ht
    · exact ih l2 hl2 e he' t ht

/-- Two successful whole-frontier walks over graphs that differ only
in parent iteration order, subset annotation maps that differ only in
iteration order, and permuted frontier lists, produce the same result
map (pointwise). -/
lemma walk_results_agree (P1 P2 : Params)
    (hbgT : P1.backgroundTotal = P2.backgroundTotal)
    (hsubT : P1.subsetTotal = P2.subsetTotal)
    (hgd : P1.gafDict = P2.gafDict)
    (hmg : P1.minGenes = P2.minGenes)
    (hth : P1.threshold = P2.threshold)
    (hG : GraphPerm P1.GOdict P2.GOdict)
    (hS : GafPerm P1.gafSubset P2.gafSubset)
    {fuel1 fuel2 : ℕ} {l1 l2 : List String} (hperm : l1.Perm l2) {r1 r2 : PMap}
    (hw1 : walkList (recursiveTester P1 fuel1) l1 [] = .ok r1)
    (hw2 : walkList (recursiveTester P2 fuel2) l2 [] = .ok r2) :
    ∀ x, r1.lookup x = r2.lookup x := by
  have hbg : ∀ id t1 t2, P1.GOdict.lookup id = some t1 →
      P2.GOdict.lookup id = some t2 →
      bgHits P1 id t1 = bgHits P2 id t2 ∧ pValOf P1 id t1 = pValOf P2 id t2 := by
    intro id t1 t2 h1 h2
    rcases hG id with ⟨hn, _⟩ | ⟨u1, u2, hu1, hu2, hup, huc⟩
    · rw [hn] at h1
      exact absurd h1 (by simp)
    · rw [h1] at hu1
      injection hu1 with hu1
      rw [h2] at hu2
      injection hu2 with hu2
      subst hu1
      subst hu2
      constructor
      · unfold bgHits validTermsOf
        rw [huc, hgd]
      · unfold pValOf subHits bgHits validTermsOf
        rw [huc, hgd, hbgT, hsubT, countGOassociations_perm _ hS]
  have hrec : ∀ id, Records P1 id ↔ Records P2 id := by
    intro id
    rcases hG id with ⟨hn1, hn2⟩ | ⟨t1, t2, h1, h2, _, _⟩
    · constructor <;> rintro ⟨t, ht, _⟩
      · rw [hn1] at ht
        exact absurd ht (by simp)
      · rw [hn2] at ht
        exact absurd ht (by simp)
    · have h1P : P1.GOdict.lookup id = some t1 := h1
      have h2P : P2.GOdict.lookup id = some t2 := h2
      rw [records_iff h1P, records_iff h2P, hmg, (hbg id t1 t2 h1 h2).1]
  have hedge : ∀ id p, Edge P1 id p ↔ Edge P2 id p := by
    intro id p
    rcases hG id with ⟨hn1, hn2⟩ | ⟨t1, t2, h1, h2, hpp, _⟩
    · constructor <;> rintro ⟨t, ht, _, _⟩
      · rw [hn1] at ht
        exact absurd ht (by simp)
      · rw [hn2] at ht
        exact absurd ht (by simp)
    · have h1P : P1.GOdict.lookup id = some t1 := h1
      have h2P : P2.GOdict.lookup id = some t2 := h2
      obtain ⟨hbgeq, hpveq⟩ := hbg id t1 t2 h1 h2
      rw [edge_iff h1P p, edge_iff h2P p, hbgeq, hpveq, hmg, hth, hpp.mem_iff]
  have hpv : ∀ id, pValAt P1 id = pValAt P2 id := by
    intro id
    rcases hG id with ⟨hn1, hn2⟩ | ⟨t1, t2, h1, h2, _, _⟩
    · unfold pValAt
      rw [show P1.GOdict.lookup id = none from hn1,
        show P2.GOdict.lookup id = none from hn2]
    · unfold pValAt
      rw [show P1.GOdict.lookup id = some t1 from h1,
        show P2.GOdict.lookup id = some t2 from h2]
      exact (hbg id t1 t2 h1 h2).2
  have hreach : ∀ (m : PMap) (a x : String),
      ReachAvoid P1 m a x ↔ ReachAvoid P2 m a x := by
    intro m a x
    constructor
    · intro h
      induction h with
      | refl z hz => exact .refl z hz
      | step z y w hz he _ ih => exact .step z y w hz ((hedge z y).mp he) ih
    · intro h
      induction h with
      | refl z hz => exact .refl z hz
      | step z y w hz he _ ih => exact .step z y w hz ((hedge z y).mpr he) ih
  have S1spec := walkListSpec P1 fuel1 l1 [] r1 hw1
  have S2spec := walkListSpec P2 fuel2 l2 [] r2 hw2
  intro x
  have hnone : ([] : PMap).lookup x = none := rfl
  rcases Classical.em ((∃ a ∈ l1, ReachAvoid P1 [] a x) ∧ Records P1 x) with hc | hc
  · have hc2 : (∃ a ∈ l2, ReachAvoid P2 [] a x) ∧ Records P2 x := by
      obtain ⟨⟨a, ha, hax⟩, hr⟩ := hc
      exact ⟨⟨a, hperm.mem_iff.mp ha, (hreach [] a x).mp hax⟩, (hrec x).mp hr⟩
    rw [((S1spec x).2 hnone).1 hc, ((S2spec x).2 hnone).1 hc2, hpv x]
  · have hc2 : ¬ ((∃ a ∈ l2, ReachAvoid P2 [] a x) ∧ Records P2 x) := by
      rintro ⟨⟨a, ha, hax⟩, hr⟩
      exact hc ⟨⟨a, hperm.mem_iff.mpr ha, (hreach [] a x).mpr hax⟩, (hrec x).mpr hr⟩
    rw [((S1spec x).2 hnone).2 hc, ((S2spec x).2 hnone).2 hc2]

/-- C9: for fixed inputs, the result map of `enrichmentAnalysis` does
not depend on the iteration order of the Python sets and dicts it
traverses: any two successful runs — over per-term parent sets in
different orders (`GraphPerm`), the subset annotation dict presented
in a different order (`GafPerm`), and hence permuted frontier lists —
agree pointwise on the returned map (same keys, same p-values).  Two
runs on identical inputs (determinism) are the special case of the
identity permutations, independent of the recursion budgets. -/
theorem enrichmentAnalysis_order_independent
    (fuel1 fuel2 : ℕ) (background subset : Finset String)
    (G1 G2 : GOGraph) (gafDict S1 S2 : Gaf) (minGenes : ℕ) (threshold : ℚ)
    (r1 r2 : PMap) (hG : GraphPerm G1 G2) (hS : GafPerm S1 S2)
    (h1 : enrichmentAnalysis fuel1 background subset G1 gafDict S1 minGenes threshold
      = .ok r1)
    (h2 : enrichmentAnalysis fuel2 background subset G2 gafDict S2 minGenes threshold
      = .ok r2) :
    ∀ x, r1.lookup x = r2.lookup x := by
  unfold enrichmentAnalysis at h1 h2
  obtain ⟨l1, hb1, hw1⟩ := RunResult.bind_ok h1
  obtain ⟨l2, hb2, hw2⟩ := RunResult.bind_ok h2
  have hcl1 := baseGOids_ok_closed G1 S1 l1 hb1
  have hcl2 := baseGOids_ok_closed G2 S2 l2 hb2
  have hl1 : l1 = S1.flatMap fun e => e.2.filter (isLeaf G1) := by
    have h := hb1.symm.trans (baseGOids_eq G1 S1 hcl1)
    injection h
  have hl2 : l2 = S2.flatMap fun e => e.2.filter (isLeaf G2) := by
    have h := hb2.symm.trans (baseGOids_eq G2 S2 hcl2)
    injection h
  have hperm : l1.Perm l2 := by
    rw [hl1, hl2]
    exact baseList_perm hG hS
  exact walk_results_agree
    ⟨background.card, subset.card, G1, gafDict, S1, minGenes, threshold⟩
    ⟨background.card, subset.card, G2, gafDict, S2, minGenes, threshold⟩
    rfl rfl rfl rfl rfl hG hS hperm hw1 hw2

lemma permGraphA_graphPerm_B : GraphPerm permGraphA permGraphB := by
  intro id
  by_cases h1 : id = "T"
  · subst h1
    right
    exact ⟨⟨["P1", "P2"], ∅⟩, ⟨["P2", "P1"], ∅⟩, rfl, rfl,
      List.Perm.swap "P2" "P1" [], rfl⟩
  · by_cases h2 : id = "P1"
    · subst h2
      right
      exact ⟨⟨[], {"T"}⟩, ⟨[], {"T"}⟩, rfl, rfl, List.Perm.refl _, rfl⟩
    · by_cases h3 : id = "P2"
      · subst h3
        right
        exact ⟨⟨[], {"T"}⟩, ⟨[], {"T"}⟩, rfl, rfl, List.Perm.refl _, rfl⟩
      · have e1 : (id == "T") = false := beq_eq_false_iff_ne.mpr h1
        have e2 : (id == "P1") = false := beq_eq_false_iff_ne.mpr h2
        have e3 : (id == "P2") = false := beq_eq_false_iff_ne.mpr h3
        left
        constructor <;> simp [permGraphA, permGraphB, List.lookup, e1, e2, e3]

/-- Witness for `enrichmentAnalysis_order_independent`: the two parent
iteration orders of the same graph, the same subset annotations, and
two successful runs. -/
theorem enrichmentAnalysis_order_independent_witness :
    GraphPerm permGraphA permGraphB ∧
    GafPerm [("gene1", ["T"])] [("gene1", ["T"])] ∧
    enrichmentAnalysis 3 ∅ ∅ permGraphA [] [("gene1", ["T"])] 3 (1/20) = .ok [] ∧
    enrichmentAnalysis 3 ∅ ∅ permGraphB [] [("gene1", ["T"])] 3 (1/20) = .ok [] ∧
    ∀ x, ([] : PMap).lookup x = ([] : PMap).lookup x := by
  have hS : GafPerm [("gene1", ["T"])] [("gene1", ["T"])] :=
    ⟨[("gene1", ["T"])],
      List.forall₂_same.mpr fun a _ => ⟨rfl, List.Perm.refl _⟩, List.Perm.refl _⟩
  exact ⟨permGraphA_graphPerm_B, hS, rfl, rfl,
    enrichmentAnalysis_order_independent 3 3 ∅ ∅ permGraphA permGraphB []
      [("gene1", ["T"])] [("gene1", ["T"])] 3 (1/20) [] []
      permGraphA_graphPerm_B hS rfl rfl⟩
